import Mathlib

/-!
Verification of the structural source-rewriting engine
(`findBalancedEnd`, `skipQuoted`, `skipTemplate`, `extractProp`,
`reindentLines`, `detectIndentUnit`, `rewriteShippingDiscountOutput`)
from `migrate-extensions.js` / `upgrade-functions.js`.

Strings are modelled as `List Char`; JavaScript's out-of-bounds
`str[i] === undefined` is modelled with `Option Char`.  All loops are
embedded as fuel-indexed structural recursions; every loop of the source
advances its cursor by at least one on each iteration except the outer
loop of `extractProp` (which can stall), so a fuel of `length + 1`
makes each wrapper agree with the source wherever the source
terminates, and fuel exhaustion (`none`) marks divergence.
-/

namespace Rewriter

/-- The character `{`. -/
def obr : Char := Char.ofNat 123
/-- The character `}`. -/
def cbr : Char := Char.ofNat 125
/-- The character `[`. -/
def lbk : Char := Char.ofNat 91
/-- The character `]`. -/
def rbk : Char := Char.ofNat 93
/-- The character `"`. -/
def dqu : Char := Char.ofNat 34
/-- The character `'`. -/
def squ : Char := Char.ofNat 39
/-- The backtick character. -/
def btk : Char := Char.ofNat 96
/-- The backslash character. -/
def bsl : Char := Char.ofNat 92
/-- The character `$`. -/
def dol : Char := Char.ofNat 36
/-- The character `:`. -/
def cln : Char := Char.ofNat 58
/-- The character `,`. -/
def cma : Char := Char.ofNat 44
/-- The newline character. -/
def nlc : Char := Char.ofNat 10
/-- The space character. -/
def spc : Char := Char.ofNat 32
/-- The tab character. -/
def tbc : Char := Char.ofNat 9

/-- JavaScript `str[i]`: `some` of the character, or `none` out of range. -/
def chAt (s : List Char) (i : Nat) : Option Char := (s.drop i).head?

/-- The JavaScript `/\s/` test (common whitespace characters). -/
def isWs (c : Char) : Bool :=
  c == spc || c == tbc || c == nlc || c == Char.ofNat 13 ||
  c == Char.ofNat 12 || c == Char.ofNat 11 || c == Char.ofNat 160

/-- JavaScript `String.prototype.substring(a, b)` for non-negative
arguments: clamps both to `[0, length]` and swaps them if needed. -/
def jsSubstringN (s : List Char) (a b : Nat) : List Char :=
  let a' := min a s.length
  let b' := min b s.length
  (s.drop (min a' b')).take (max a' b' - min a' b')

/-- `substring` with possibly negative (Int) arguments, as JavaScript
clamps negatives to 0. -/
def jsSubstringI (s : List Char) (a b : Int) : List Char :=
  jsSubstringN s a.toNat b.toNat

/-- Fuel-indexed scan: advance `i` while the current character
satisfies `p` (models the various `while` cursor loops). -/
def scanWhile (p : Char → Bool) (s : List Char) : Nat → Nat → Nat
  | 0, i => i
  | f + 1, i =>
    match chAt s i with
    | none => i
    | some c => if p c then scanWhile p s f (i + 1) else i

/-- Loop of `skipQuoted`: `q` is the opening quote character. -/
def sqGo (s : List Char) (q : Option Char) : Nat → Nat → Nat
  | 0, i => i
  | f + 1, i =>
    match chAt s i with
    | none => i
    | some c =>
      if c = bsl then sqGo s q f (i + 2)
      else if some c = q then i + 1
      else sqGo s q f (i + 1)

/-- `skipQuoted(str, pos)` from the source: `str[pos]` is a quote
character; advance past escapes and return the offset just past the
matching closing quote, or the exit offset if unterminated. -/
def skipQuoted (s : List Char) (pos : Nat) : Nat :=
  sqGo s (chAt s pos) (s.length + 1) (pos + 1)

/-- Inner interpolation loop of `skipTemplate`: raw brace counting. -/
def interpGo (s : List Char) : Nat → Int → Nat → Nat
  | 0, _, i => i
  | f + 1, d, i =>
    if d ≤ 0 then i
    else
      match chAt s i with
      | none => i
      | some c =>
        if c = obr then interpGo s f (d + 1) (i + 1)
        else if c = cbr then interpGo s f (d - 1) (i + 1)
        else interpGo s f d (i + 1)

/-- Loop of `skipTemplate`. -/
def stGo (s : List Char) : Nat → Nat → Nat
  | 0, i => i
  | f + 1, i =>
    match chAt s i with
    | none => i
    | some c =>
      if c = bsl then stGo s f (i + 2)
      else if c = dol ∧ chAt s (i + 1) = some obr then
        stGo s f (interpGo s (s.length + 1) 1 (i + 2))
      else if c = btk then i + 1
      else stGo s f (i + 1)

/-- `skipTemplate(str, pos)` from the source. -/
def skipTemplate (s : List Char) (pos : Nat) : Nat :=
  stGo s (s.length + 1) (pos + 1)

/-- Loop of `findBalancedEnd`: depth-counting scan that skips string
and template contents wholesale. -/
def fbGo (s : List Char) (opn : Option Char) (close : Char) :
    Nat → Int → Nat → Int
  | 0, _, _ => -1
  | f + 1, depth, i =>
    match chAt s i with
    | none => -1
    | some c =>
      if c = dqu ∨ c = squ then fbGo s opn close f depth (skipQuoted s i)
      else if c = btk then fbGo s opn close f depth (skipTemplate s i)
      else if some c = opn then fbGo s opn close f (depth + 1) (i + 1)
      else if c = close then
        (if depth - 1 = 0 then (i : Int) else fbGo s opn close f (depth - 1) (i + 1))
      else fbGo s opn close f depth (i + 1)

/-- `findBalancedEnd(str, pos)` from the source: index of the closer
matching the opener at `pos`, or `-1`. -/
def findBalancedEnd (s : List Char) (pos : Nat) : Int :=
  fbGo s (chAt s pos) (if chAt s pos = some obr then cbr else rbk)
    (s.length + 1) 0 pos

/-- Character class of the bareword-advance regex in `extractProp`. -/
def inBwClass (c : Char) : Bool :=
  isWs c || c == obr || c == lbk || c == btk || c == dqu || c == squ ||
  c == cma || c == cbr || c == rbk

/-- Result of one iteration of the `extractProp` outer loop. -/
inductive EPStep where
  | ret (r : Option (List Char))
  | cont (i : Nat)
deriving DecidableEq, Repr

/-- One iteration of the `extractProp` outer loop at cursor `i0`. -/
def extractPropStep (body nm : List Char) (i0 : Nat) : EPStep :=
  if body.length ≤ i0 then .ret none
  else
    let i := scanWhile isWs body (body.length + 1) i0
    if body.length ≤ i then .ret none
    else
      let j0 := scanWhile (· == spc) body (body.length + 1) (i + nm.length)
      if jsSubstringN body i (i + nm.length) = nm ∧ chAt body j0 = some cln then
        let j := scanWhile (· == spc) body (body.length + 1) (j0 + 1)
        let e : Int :=
          if chAt body j = some obr then findBalancedEnd body j + 1
          else if chAt body j = some lbk then findBalancedEnd body j + 1
          else if chAt body j = some btk then (skipTemplate body j : Int)
          else if chAt body j = some dqu ∨ chAt body j = some squ then
            (skipQuoted body j : Int)
          else (scanWhile (fun c => !(c == cma || c == nlc)) body
            (body.length + 1) j : Int)
        .ret (some (jsSubstringI body j e))
      else if chAt body i = some obr then .cont (findBalancedEnd body i + 1).toNat
      else if chAt body i = some lbk then .cont (findBalancedEnd body i + 1).toNat
      else if chAt body i = some btk then .cont (skipTemplate body i)
      else if chAt body i = some dqu ∨ chAt body i = some squ then
        .cont (skipQuoted body i)
      else
        let i2 := scanWhile (fun c => !(inBwClass c)) body (body.length + 1) i
        if chAt body i2 = some cma ∨ chAt body i2 = some cln then .cont (i2 + 1)
        else .cont i2

/-- Iterate `extractPropStep`; `none` marks fuel exhaustion, which with
the wrapper's fuel only happens when the source loop diverges. -/
def epGo (body nm : List Char) : Nat → Nat → Option (Option (List Char))
  | 0, _ => none
  | f + 1, i =>
    match extractPropStep body nm i with
    | .ret r => some r
    | .cont i' => epGo body nm f i'

/-- `extractProp(body, name)` from the source.  `some (some v)` is
`{ value: v }`, `some none` is `null`, `none` is divergence. -/
def extractProp (body nm : List Char) : Option (Option (List Char)) :=
  epGo body nm (body.length + 1) 0

/-- Loop of `String.prototype.indexOf(pat, start)`. -/
def idxGo (s pat : List Char) : Nat → Nat → Option Nat
  | 0, _ => none
  | f + 1, i =>
    if pat.isPrefixOf (s.drop i) then some i
    else if s.length ≤ i then none
    else idxGo s pat f (i + 1)

/-- JavaScript `s.indexOf(pat, start)` (`none` for `-1`). -/
def jsIndexOf (s pat : List Char) (start : Nat) : Option Nat :=
  idxGo s pat (s.length + 1) start

/-- JavaScript `s.includes(pat)`. -/
def jsIncludes (s pat : List Char) : Bool :=
  (jsIndexOf s pat 0).isSome

/-- JavaScript `text.split('\n')`. -/
def splitNl : List Char → List (List Char)
  | [] => [[]]
  | c :: t =>
    if c = nlc then [] :: splitNl t
    else
      match splitNl t with
      | [] => [[c]]
      | h :: r => (c :: h) :: r

/-- JavaScript `parts.join('\n')`. -/
def joinNl : List (List Char) → List Char
  | [] => []
  | [l] => l
  | l :: r => l ++ nlc :: joinNl r

/-- `line.trim() === ''`: the line is all whitespace. -/
def isAllWs (l : List Char) : Bool := l.all isWs

/-- `reindentLines(text, extra)` from the source. -/
def reindentLines (text extra : List Char) : List Char :=
  joinNl ((splitNl text).enum.map fun p =>
    if p.1 = 0 ∨ isAllWs p.2 then p.2 else extra ++ p.2)

/-- JavaScript `String.prototype.trim()`. -/
def jsTrim (l : List Char) : List Char :=
  ((l.dropWhile isWs).reverse.dropWhile isWs).reverse

/-- `detectIndentUnit(content)` from the source. -/
def detectIndentUnit (content : List Char) : List Char :=
  if jsIncludes content [nlc, tbc] then [tbc] else [spc, spc]

/-- The backward scan `while (ls > 0 && content[ls-1] !== '\n') ls--`. -/
def lineStartGo (s : List Char) : Nat → Nat
  | 0 => 0
  | k + 1 => if chAt s k = some nlc then k + 1 else lineStartGo s k

/-- Start offset of the line containing offset `e`. -/
def lineStartOf (s : List Char) (e : Nat) : Nat := lineStartGo s e

/-- The `for` loop locating the first `{` inside the anchor's array. -/
def fesGo (s : List Char) : Nat → Nat → Option Nat
  | 0, _ => none
  | f + 1, i =>
    match chAt s i with
    | none => none
    | some c =>
      if c = obr then some i
      else if c = rbk then none
      else if !(isWs c) then none
      else fesGo s f (i + 1)

/-- The already-migrated marker substring. -/
def marker : List Char := "deliveryDiscountsAdd".toList

/-- The anchor keyword. -/
def opsAnchor : List Char := "operations:".toList

/-- An accepted candidate site: element span plus the three extracted
legacy property value texts. -/
structure Site where
  elemStart : Nat
  elemEnd : Nat
  valueV : List Char
  targetsV : List Char
  messageV : List Char
deriving DecidableEq, Repr

/-- The candidate-search loop of `rewriteShippingDiscountOutput`:
`some (some st)` is an accepted site, `some none` means the scan was
exhausted (output equals input), `none` marks divergence inside
`extractProp`. -/
def rlGo (content : List Char) : Nat → Nat → Option (Option Site)
  | 0, _ => none
  | f + 1, searchFrom =>
    if content.length ≤ searchFrom then some none
    else
      match jsIndexOf content opsAnchor searchFrom with
      | none => some none
      | some idx =>
        let bi := scanWhile isWs content (content.length + 1)
          (idx + opsAnchor.length)
        if chAt content bi = some lbk then
          match fesGo content (content.length + 1) (bi + 1) with
          | none => rlGo content f (bi + 1)
          | some elemStart =>
            let ee := findBalancedEnd content elemStart
            if ee < 0 then rlGo content f (elemStart + 1)
            else
              let elemEnd := ee.toNat
              let body := jsSubstringN content (elemStart + 1) elemEnd
              if jsIncludes body marker then rlGo content f (elemEnd + 1)
              else
                match extractProp body ("value".toList),
                    extractProp body ("targets".toList),
                    extractProp body ("message".toList) with
                | some vP, some tP, some mP =>
                  match vP, tP, mP with
                  | some v, some t, some m =>
                    some (some ⟨elemStart, elemEnd, v, t, m⟩)
                  | _, _, _ => rlGo content f (elemEnd + 1)
                | _, _, _ => none
        else rlGo content f bi

/-- The replacement block assembled for an accepted site (the
`newElem` of the source). -/
def assembleSite (content : List Char) (st : Site) : List Char :=
  let unit := detectIndentUnit content
  let ls := lineStartOf content st.elemStart
  let elemIndent := (jsSubstringN content ls st.elemStart).takeWhile isWs
  let i1 := elemIndent ++ unit
  let i2 := i1 ++ unit
  let i3 := i2 ++ unit
  let i4 := i3 ++ unit
  let extra := unit ++ unit ++ unit
  (elemIndent ++ [obr, nlc] ++ i1) ++ marker ++
  (": \x7b\n".toList ++
  i2 ++ "selectionStrategy: \"ALL\",\n".toList ++
  i2 ++ "candidates: [\n".toList ++
  i3 ++ [obr, nlc] ++
  i4 ++ "targets: ".toList ++ reindentLines st.targetsV extra ++ [cma, nlc] ++
  i4 ++ "value: ".toList ++ reindentLines st.valueV extra ++ [cma, nlc] ++
  i4 ++ "message: ".toList ++ jsTrim st.messageV ++ [cma, nlc] ++
  i4 ++ "associatedDiscountCode: null,\n".toList ++
  i3 ++ [cbr, cma, nlc] ++
  i2 ++ "],\n".toList ++
  i1 ++ [cbr, cma, nlc] ++
  elemIndent ++ [cbr])

/-- The splice of the source: text before the site's line start, then
the assembled block, then the text after the element's closer. -/
def spliceAt (content : List Char) (st : Site) : List Char :=
  jsSubstringN content 0 (lineStartOf content st.elemStart) ++
  assembleSite content st ++
  content.drop (st.elemEnd + 1)

/-- `rewriteShippingDiscountOutput(content)` from the source.
`none` marks divergence (the source loops forever). -/
def rewriteShippingDiscountOutput (content : List Char) :
    Option (List Char) :=
  if jsIncludes content marker then some content
  else
    match rlGo content (content.length + 1) 0 with
    | none => none
    | some none => some content
    | some (some st) => some (spliceAt content st)

end Rewriter

namespace Rewriter

/-! ### Helper lemmas relating `jsIndexOf` / `jsIncludes` to `<:+:` -/

/-- An infix survives appending on the right. -/
theorem infixExtR {l m : List Char} (y : List Char) (h : l <:+: m) :
    l <:+: m ++ y := by
  obtain ⟨p, q, hpq⟩ := h
  exact ⟨p, q ++ y, by rw [← hpq]; simp⟩

/-- An infix survives appending on the left. -/
theorem infixExtL {l m : List Char} (x : List Char) (h : l <:+: m) :
    l <:+: x ++ m := by
  obtain ⟨p, q, hpq⟩ := h
  exact ⟨x ++ p, q, by rw [← hpq]; simp⟩

/-- If `pat` is a prefix of no tail of `s`, the index scan fails. -/
theorem idxGo_none_of {s pat : List Char}
    (h : ∀ j, ¬ pat <+: s.drop j) : ∀ f i, idxGo s pat f i = none := by
  intro f
  induction f with
  | zero => intro i; rfl
  | succ f ih =>
    intro i
    have hnp : ¬ (pat.isPrefixOf (s.drop i) = true) := fun hp =>
      h i (List.isPrefixOf_iff_prefix.mp hp)
    unfold idxGo
    rw [if_neg hnp]
    by_cases hle : s.length ≤ i
    · rw [if_pos hle]
    · rw [if_neg hle]
      exact ih (i + 1)

/-- If `pat` is a prefix of the tail at `j` and the scan has enough
fuel to reach `j`, the index scan succeeds. -/
theorem idxGo_isSome_of {s pat : List Char} {j : Nat}
    (h : pat <+: s.drop j) :
    ∀ f i, i ≤ j → j < i + f → (idxGo s pat f i).isSome := by
  intro f
  induction f with
  | zero => intro i h1 h2; omega
  | succ f ih =>
    intro i h1 h2
    unfold idxGo
    by_cases hp : pat.isPrefixOf (s.drop i)
    · rw [if_pos hp]; rfl
    · rw [if_neg hp]
      have hij : i ≠ j := by
        intro he
        exact hp ((List.isPrefixOf_iff_prefix).mpr (he ▸ h))
      have hlt : i < j := lt_of_le_of_ne h1 hij
      rw [if_neg]
      · exact ih (i + 1) hlt (by omega)
      · intro hle
        have hdj : s.drop j = [] := List.drop_eq_nil_of_le (by omega)
        have hpat : pat = [] := List.prefix_nil.mp (hdj ▸ h)
        exact hp ((List.isPrefixOf_iff_prefix).mpr
          (by rw [hpat]; exact List.nil_prefix))

/-- `includes` holds whenever the pattern occurs as an infix. -/
theorem includes_of_occurs {s pat : List Char} (h : pat <:+: s) :
    jsIncludes s pat = true := by
  obtain ⟨p, q, hpq⟩ := h
  have hpre : pat <+: s.drop p.length := by
    have : s.drop p.length = pat ++ q := by
      rw [← hpq, List.append_assoc, List.drop_left]
    exact this ▸ ⟨q, rfl⟩
  have hj : p.length ≤ s.length := by
    rw [← hpq]; simp
  have := idxGo_isSome_of hpre (s.length + 1) 0 (Nat.zero_le _) (by omega)
  unfold jsIncludes jsIndexOf
  exact (Option.isSome_iff_exists.mp this).elim fun a ha => by
    rw [ha]; rfl

/-- `indexOf` fails from every start when the pattern is not an infix. -/
theorem indexOf_none_of_absent {s pat : List Char}
    (h : ¬ pat <:+: s) (start : Nat) : jsIndexOf s pat start = none := by
  apply idxGo_none_of
  intro j hpre
  obtain ⟨r, hr⟩ := hpre
  exact h ⟨s.take j, r, by rw [List.append_assoc, hr, List.take_append_drop]⟩

/-- A buffer containing the marker is returned unchanged. -/
theorem rewrite_marker_fix {t : List Char}
    (h : jsIncludes t marker = true) :
    rewriteShippingDiscountOutput t = some t := by
  unfold rewriteShippingDiscountOutput
  rw [h]
  rfl

/-- The assembled block always contains the marker. -/
theorem marker_infix_assemble (content : List Char) (st : Site) :
    marker <:+: assembleSite content st := by
  unfold assembleSite
  exact List.infix_append _ _ _

/-- The spliced output always contains the marker. -/
theorem marker_infix_splice (content : List Char) (st : Site) :
    marker <:+: spliceAt content st := by
  unfold spliceAt
  exact infixExtR _ (infixExtL _ (marker_infix_assemble content st))

end Rewriter


set_option maxRecDepth 200000

namespace Rewriter

/-! ### Unfolding lemmas for the driver -/

/-- With no marker in the buffer, the driver is its candidate loop. -/
theorem rewrite_def_false {s : List Char}
    (hm : jsIncludes s marker = false) :
    rewriteShippingDiscountOutput s =
      match rlGo s (s.length + 1) 0 with
      | none => none
      | some none => some s
      | some (some st) => some (spliceAt s st) := by
  unfold rewriteShippingDiscountOutput
  rw [hm]
  exact if_neg Bool.false_ne_true

/-- Without the anchor keyword the candidate loop finds nothing. -/
theorem rlGo_no_anchor {s : List Char} (h : ¬ (opsAnchor <:+: s))
    (f sf : Nat) : rlGo s (f + 1) sf = some none := by
  unfold rlGo
  by_cases hz : s.length ≤ sf
  · rw [if_pos hz]
  · rw [if_neg hz, indexOf_none_of_absent h sf]

/-! ### Concrete inputs used by several claims -/

/-- The end-to-end scenario input from the specification. -/
def c2input : List Char :=
  "return \x7b operations: [\x7b value: \x7b percentage: \x7b value: 10 \x7d \x7d, targets: [\x7b deliveryOption: \x7b handle: \"h\" \x7d \x7d], message: \"10% off shipping\" \x7d] \x7d;".toList

/-- The output the engine produces on `c2input`. -/
def c2output : List Char :=
  "\x7b\n  deliveryDiscountsAdd: \x7b\n    selectionStrategy: \"ALL\",\n    candidates: [\n      \x7b\n        targets: [\x7b deliveryOption: \x7b handle: \"h\" \x7d \x7d],\n        value: \x7b percentage: \x7b value: 10 \x7d \x7d,\n        message: \"10% off shipping\",\n        associatedDiscountCode: null,\n      \x7d,\n    ],\n  \x7d,\n\x7d] \x7d;".toList

/-! ### Claim theorems, first batch -/

/-- Claim C10: a buffer containing `deliveryDiscountsAdd` anywhere at
all is returned unchanged: the already-migrated guard is global over
the whole buffer, so no site in such a file is ever migrated. -/
theorem c10_marker_guard_global (s : List Char) (h : marker <:+: s) :
    rewriteShippingDiscountOutput s = some s :=
  rewrite_marker_fix (includes_of_occurs h)

theorem c10_marker_guard_global_witness :
    rewriteShippingDiscountOutput ("x deliveryDiscountsAdd y".toList) =
      some ("x deliveryDiscountsAdd y".toList) :=
  c10_marker_guard_global _ ⟨"x ".toList, " y".toList, by decide⟩

/-- Claim C9: an input with no occurrence of the anchor keyword
`operations:` is returned unchanged, byte for byte. -/
theorem c9_no_anchor_unchanged (s : List Char)
    (h : ¬ (opsAnchor <:+: s)) :
    rewriteShippingDiscountOutput s = some s := by
  by_cases hm : jsIncludes s marker = true
  · exact rewrite_marker_fix hm
  · rw [Bool.not_eq_true] at hm
    rw [rewrite_def_false hm, rlGo_no_anchor h s.length 0]

theorem c9_no_anchor_unchanged_witness :
    rewriteShippingDiscountOutput ("hello".toList) =
      some ("hello".toList) :=
  c9_no_anchor_unchanged ("hello".toList) (by decide)

/-- Claim C3: applying the driver to its own output a second time is
the identity.  The engine is partial (`extractProp` can diverge), so
the statement is conditioned on the first application producing an
output: whenever `rewriteShippingDiscountOutput s = some t`, the
second application returns `t` unchanged. -/
theorem c3_idempotent (s t : List Char)
    (h : rewriteShippingDiscountOutput s = some t) :
    rewriteShippingDiscountOutput t = some t := by
  by_cases hm : jsIncludes s marker = true
  · have hts : s = t :=
      Option.some.inj ((rewrite_marker_fix hm).symm.trans h)
    subst hts
    exact rewrite_marker_fix hm
  · rw [Bool.not_eq_true] at hm
    rw [rewrite_def_false hm] at h
    cases hr : rlGo s (s.length + 1) 0 with
    | none => rw [hr] at h; exact absurd h (by simp)
    | some o =>
      cases o with
      | none =>
        rw [hr] at h
        have hts : s = t := Option.some.inj h
        subst hts
        rw [rewrite_def_false hm, hr]
      | some st =>
        rw [hr] at h
        have hts : spliceAt s st = t := Option.some.inj h
        subst hts
        exact rewrite_marker_fix
          (includes_of_occurs (marker_infix_splice s st))

theorem c3_idempotent_witness :
    rewriteShippingDiscountOutput ("abc".toList) = some ("abc".toList) :=
  c3_idempotent ("abc".toList) ("abc".toList) (by decide)

/-- Claim C4 is a code bug: `extractProp` does not terminate on every
body.  On the body `"]"` the loop cursor never advances (the step
function maps state 0 back to state 0), so no amount of fuel finishes
the scan, and the reachable engine input `operations: [{]}` makes
`rewriteShippingDiscountOutput` diverge (modelled as `none`). -/
theorem c4_extractProp_diverges :
    extractPropStep [rbk] ("value".toList) 0 = .cont 0 ∧
    (∀ fuel, epGo [rbk] ("value".toList) fuel 0 = none) ∧
    rewriteShippingDiscountOutput ("operations: [\x7b]\x7d".toList) = none := by
  refine ⟨by decide, ?_, by decide⟩
  intro fuel
  induction fuel with
  | zero => rfl
  | succ f ih =>
    show (match extractPropStep [rbk] ("value".toList) 0 with
      | .ret r => some r
      | .cont i' => epGo [rbk] ("value".toList) f i') = none
    rw [show extractPropStep [rbk] ("value".toList) 0 = .cont 0 by decide]
    exact ih

/-- Claim C2: on the specification's end-to-end input the engine
produces an output containing the `deliveryDiscountsAdd` wrapper with
`selectionStrategy: "ALL"`, a single-element `candidates` list
reproducing the extracted `targets`, `value` and `message` texts
verbatim, an appended `associatedDiscountCode: null` field, and a
second application leaves that output unchanged. -/
theorem c2_end_to_end :
    rewriteShippingDiscountOutput c2input = some c2output ∧
    ("deliveryDiscountsAdd: \x7b".toList <:+: c2output) ∧
    ("selectionStrategy: \"ALL\",".toList <:+: c2output) ∧
    ("candidates: [".toList <:+: c2output) ∧
    ("targets: [\x7b deliveryOption: \x7b handle: \"h\" \x7d \x7d],".toList <:+: c2output) ∧
    ("value: \x7b percentage: \x7b value: 10 \x7d \x7d,".toList <:+: c2output) ∧
    ("message: \"10% off shipping\",".toList <:+: c2output) ∧
    ("associatedDiscountCode: null,".toList <:+: c2output) ∧
    rewriteShippingDiscountOutput c2output = some c2output := by
  refine ⟨by decide, by decide, by decide, by decide, by decide, by decide,
    by decide, by decide, by decide⟩

end Rewriter

namespace Rewriter

/-! ### Claim C1: the splice frame -/

/-- Taking up to `min n length` is taking up to `n`. -/
theorem take_min (s : List Char) (n : Nat) :
    s.take (min n s.length) = s.take n := by
  rcases le_total n s.length with h | h
  · rw [min_eq_left h]
  · rw [min_eq_right h, List.take_length, List.take_of_length_le h]

/-- `substring(0, b)` is `take b`. -/
theorem jsSubstringN_zero (s : List Char) (b : Nat) :
    jsSubstringN s 0 b = s.take b := by
  have h1 : min (min 0 s.length) (min b s.length) = 0 := by simp
  have h2 : max (min 0 s.length) (min b s.length) = min b s.length := by
    simp
  simp only [jsSubstringN, h1, h2, Nat.sub_zero, List.drop_zero]
  exact take_min s b

/-- The backward line-start scan never moves forward. -/
theorem lineStartGo_le (s : List Char) : ∀ e, lineStartGo s e ≤ e := by
  intro e
  induction e with
  | zero => exact Nat.le_refl 0
  | succ k ih =>
    unfold lineStartGo
    by_cases h : chAt s k = some nlc
    · rw [if_pos h]
    · rw [if_neg h]; exact Nat.le_succ_of_le ih

/-- The element locator only ever returns the position of a `{`. -/
theorem fesGo_obr {s : List Char} :
    ∀ f i j, fesGo s f i = some j → chAt s j = some obr := by
  intro f
  induction f with
  | zero => intro i j h; exact absurd h (by simp [fesGo])
  | succ f ih =>
    intro i j h
    unfold fesGo at h
    cases hc : chAt s i with
    | none => rw [hc] at h; exact absurd h (by simp)
    | some c =>
      rw [hc] at h
      simp only [] at h
      by_cases h1 : c = obr
      · rw [if_pos h1] at h
        have hij : i = j := Option.some.inj h
        subst hij; rw [hc, h1]
      · rw [if_neg h1] at h
        by_cases h2 : c = rbk
        · rw [if_pos h2] at h; exact absurd h (by simp)
        · rw [if_neg h2] at h
          by_cases h3 : (!(isWs c)) = true
          · rw [if_pos h3] at h; exact absurd h (by simp)
          · rw [if_neg h3] at h; exact ih _ _ h

/-- Any accepted site's element start holds a `{` of the buffer. -/
theorem rlGo_found_inv {content : List Char} :
    ∀ f sf st, rlGo content f sf = some (some st) →
      chAt content st.elemStart = some obr := by
  intro f
  induction f with
  | zero => intro sf st h; exact absurd h (by simp [rlGo])
  | succ f ih =>
    intro sf st h
    simp only [rlGo] at h
    repeat' split at h
    all_goals first
      | (have hst := Option.some.inj (Option.some.inj h)
         subst hst
         exact fesGo_obr _ _ _ (by assumption))
      | exact ih _ _ h
      | exact absurd h (by simp)

/-- Claim C1 (amended): the splice replaces the span from the start of
the candidate element's line (`ls`) through the element's closing
brace (`elemEnd`), not the span from `elemStart`: text before `ls` and
after `elemEnd` is copied verbatim, while the text between `ls` and
`elemStart` is replaced by its leading-whitespace prefix inside the
assembled block. -/
theorem c1_splice_frame (content : List Char) (st : Site)
    (hm : jsIncludes content marker = false)
    (hr : rlGo content (content.length + 1) 0 = some (some st)) :
    rewriteShippingDiscountOutput content =
      some (content.take (lineStartOf content st.elemStart) ++
        assembleSite content st ++ content.drop (st.elemEnd + 1)) ∧
    (content.take (lineStartOf content st.elemStart) ++
        assembleSite content st ++ content.drop (st.elemEnd + 1)).take
        (lineStartOf content st.elemStart) =
      content.take (lineStartOf content st.elemStart) ∧
    (content.take (lineStartOf content st.elemStart) ++
        assembleSite content st ++ content.drop (st.elemEnd + 1)).drop
        (lineStartOf content st.elemStart +
          (assembleSite content st).length) =
      content.drop (st.elemEnd + 1) := by
  have hes : st.elemStart < content.length := by
    have hch := rlGo_found_inv _ _ _ hr
    unfold chAt at hch
    by_cases hlt : st.elemStart < content.length
    · exact hlt
    · rw [List.drop_eq_nil_of_le (by omega)] at hch
      exact absurd hch (by simp)
  have hls : lineStartOf content st.elemStart ≤ content.length :=
    le_of_lt (lt_of_le_of_lt (lineStartGo_le content st.elemStart) hes)
  have hlen : (content.take (lineStartOf content st.elemStart)).length =
      lineStartOf content st.elemStart := by
    rw [List.length_take]; omega
  refine ⟨?_, ?_, ?_⟩
  · rw [rewrite_def_false hm, hr]
    show some (spliceAt content st) = _
    unfold spliceAt
    rw [jsSubstringN_zero]
  · rw [List.append_assoc, List.take_left' hlen]
  · apply List.drop_left'
    rw [List.length_append, hlen]

/-- Claim C1 as stated is false: on the specification's own end-to-end
input the accepted site starts at offset 22, but the bytes before
offset 22 (`return { operations: [`) do not appear in the output. -/
theorem c1_counterexample :
    rlGo c2input (c2input.length + 1) 0 = some (some
      ⟨22, 138,
        "\x7b percentage: \x7b value: 10 \x7d \x7d".toList,
        "[\x7b deliveryOption: \x7b handle: \"h\" \x7d \x7d]".toList,
        "\"10% off shipping\"".toList⟩) ∧
    rewriteShippingDiscountOutput c2input = some c2output ∧
    c2output.take 22 ≠ c2input.take 22 := by
  refine ⟨by decide, by decide, by decide⟩

theorem c1_splice_frame_witness :
    rewriteShippingDiscountOutput
        ("operations: [\x7b value: 1, targets: 2, message: 3 \x7d]".toList) =
      some (("operations: [\x7b value: 1, targets: 2, message: 3 \x7d]".toList).take
          (lineStartOf
            ("operations: [\x7b value: 1, targets: 2, message: 3 \x7d]".toList) 13) ++
        assembleSite
          ("operations: [\x7b value: 1, targets: 2, message: 3 \x7d]".toList)
          ⟨13, 48, ['1'], ['2'], ['3', spc]⟩ ++
        ("operations: [\x7b value: 1, targets: 2, message: 3 \x7d]".toList).drop 49) :=
  (c1_splice_frame
    ("operations: [\x7b value: 1, targets: 2, message: 3 \x7d]".toList)
    ⟨13, 48, ['1'], ['2'], ['3', spc]⟩ (by decide) (by decide)).1

end Rewriter

namespace Rewriter

/-! ### Claims C8 and C5: the string and template skippers -/

/-- A position holding a character is in bounds. -/
theorem chAt_lt {s : List Char} {i : Nat} {c : Char}
    (h : chAt s i = some c) : i < s.length := by
  by_contra hn
  rw [Nat.not_lt] at hn
  unfold chAt at h
  rw [List.drop_eq_nil_of_le hn] at h
  exact absurd h (by simp)

/-- A position past the end holds no character. -/
theorem chAt_none {s : List Char} {i : Nat} (h : s.length ≤ i) :
    chAt s i = none := by
  unfold chAt
  rw [List.drop_eq_nil_of_le h]
  rfl

/-- A position holding no character is past the end. -/
theorem chAt_none_le {s : List Char} {i : Nat} (h : chAt s i = none) :
    s.length ≤ i := by
  by_contra hn
  rw [Nat.not_le] at hn
  unfold chAt at h
  rw [List.head?_eq_none_iff, List.drop_eq_nil_iff] at h
  omega

/-- Behaviour of the `skipQuoted` loop with adequate fuel: the cursor
advances, stays at most one past the end, and the result either points
just past an occurrence of the quote character or at/past the end. -/
theorem sqGo_bounds {s : List Char} {q : Option Char} :
    ∀ f i, s.length + 1 ≤ i + f → i ≤ s.length + 1 →
      i ≤ sqGo s q f i ∧ sqGo s q f i ≤ s.length + 1 ∧
      ((∃ k, i ≤ k ∧ k < s.length ∧ chAt s k = q ∧ sqGo s q f i = k + 1) ∨
        s.length ≤ sqGo s q f i) := by
  intro f
  induction f with
  | zero =>
    intro i h1 h2
    simp only [sqGo]
    exact ⟨Nat.le_refl i, h2, Or.inr (by omega)⟩
  | succ f ih =>
    intro i h1 h2
    unfold sqGo
    cases hc : chAt s i with
    | none =>
      exact ⟨Nat.le_refl i, h2, Or.inr (chAt_none_le hc)⟩
    | some c =>
      simp only []
      have hi : i < s.length := chAt_lt hc
      by_cases hb : c = bsl
      · rw [if_pos hb]
        have := ih (i + 2) (by omega) (by omega)
        refine ⟨by omega, this.2.1, ?_⟩
        cases this.2.2 with
        | inl hl =>
          obtain ⟨k, hk1, hk2, hk3, hk4⟩ := hl
          exact Or.inl ⟨k, by omega, hk2, hk3, hk4⟩
        | inr hr => exact Or.inr hr
      · rw [if_neg hb]
        by_cases hq : some c = q
        · rw [if_pos hq]
          exact ⟨Nat.le_succ i, by omega,
            Or.inl ⟨i, Nat.le_refl i, hi, hq ▸ hc, rfl⟩⟩
        · rw [if_neg hq]
          have := ih (i + 1) (by omega) (by omega)
          refine ⟨by omega, this.2.1, ?_⟩
          cases this.2.2 with
          | inl hl =>
            obtain ⟨k, hk1, hk2, hk3, hk4⟩ := hl
            exact Or.inl ⟨k, by omega, hk2, hk3, hk4⟩
          | inr hr => exact Or.inr hr

/-- Claim C8 (amended): with a quote character at `pos`, `skipQuoted`
advances (consuming two characters per backslash, including an escaped
quote), never returns more than `length + 1`, and returns either the
offset just past an occurrence of the quote character or an offset at
or past the end of the buffer if the quote is unterminated. -/
theorem c8_skipQuoted_amended (s : List Char) (pos : Nat) (q : Char)
    (hpos : pos < s.length) (hq : chAt s pos = some q)
    (hquote : q = dqu ∨ q = squ) :
    pos < skipQuoted s pos ∧ skipQuoted s pos ≤ s.length + 1 ∧
    ((∃ k, pos < k ∧ k < s.length ∧ chAt s k = some q ∧
        skipQuoted s pos = k + 1) ∨ s.length ≤ skipQuoted s pos) := by
  unfold skipQuoted
  rw [hq]
  have hb := @sqGo_bounds s (some q) (s.length + 1) (pos + 1)
    (by omega) (by omega)
  refine ⟨by omega, hb.2.1, ?_⟩
  cases hb.2.2 with
  | inl hl =>
    obtain ⟨k, hk1, hk2, hk3, hk4⟩ := hl
    exact Or.inl ⟨k, by omega, hk2, hk3, hk4⟩
  | inr hr => exact Or.inr hr

theorem c8_skipQuoted_amended_witness :
    0 < skipQuoted ("\"a\"x".toList) 0 ∧
    skipQuoted ("\"a\"x".toList) 0 ≤ ("\"a\"x".toList).length + 1 ∧
    ((∃ k, 0 < k ∧ k < ("\"a\"x".toList).length ∧
        chAt ("\"a\"x".toList) k = some dqu ∧
        skipQuoted ("\"a\"x".toList) 0 = k + 1) ∨
      ("\"a\"x".toList).length ≤ skipQuoted ("\"a\"x".toList) 0) :=
  c8_skipQuoted_amended ("\"a\"x".toList) 0 dqu (by decide) (by decide)
    (Or.inl rfl)

/-- Claim C8 as stated is false: on the two-character buffer `"\`
(a quote followed by a backslash) the escape jump leaves the buffer and
`skipQuoted` returns 3, strictly greater than the length 2. -/
theorem c8_counterexample :
    chAt [dqu, bsl] 0 = some dqu ∧
    skipQuoted [dqu, bsl] 0 = 3 ∧
    [dqu, bsl].length = 2 := by
  refine ⟨by decide, by decide, by decide⟩

end Rewriter

namespace Rewriter

/-- The interpolation loop never moves backwards. -/
theorem interpGo_ge (s : List Char) :
    ∀ f d i, i ≤ interpGo s f d i := by
  intro f
  induction f with
  | zero => intro d i; simp only [interpGo]; exact Nat.le_refl i
  | succ f ih =>
    intro d i
    unfold interpGo
    by_cases hd : d ≤ 0
    · rw [if_pos hd]
    · rw [if_neg hd]
      cases hc : chAt s i with
      | none => exact Nat.le_refl i
      | some c =>
        simp only []
        by_cases h1 : c = obr
        · rw [if_pos h1]; exact le_trans (Nat.le_succ i) (ih _ _)
        · rw [if_neg h1]
          by_cases h2 : c = cbr
          · rw [if_pos h2]; exact le_trans (Nat.le_succ i) (ih _ _)
          · rw [if_neg h2]; exact le_trans (Nat.le_succ i) (ih _ _)

/-- The interpolation loop stays within one past the end. -/
theorem interpGo_le (s : List Char) :
    ∀ f d i, i ≤ s.length + 1 → interpGo s f d i ≤ s.length + 1 := by
  intro f
  induction f with
  | zero => intro d i h; simp only [interpGo]; exact h
  | succ f ih =>
    intro d i h
    unfold interpGo
    by_cases hd : d ≤ 0
    · rw [if_pos hd]; exact h
    · rw [if_neg hd]
      cases hc : chAt s i with
      | none => exact h
      | some c =>
        simp only []
        have hi : i < s.length := chAt_lt hc
        by_cases h1 : c = obr
        · rw [if_pos h1]; exact ih _ _ (by omega)
        · rw [if_neg h1]
          by_cases h2 : c = cbr
          · rw [if_pos h2]; exact ih _ _ (by omega)
          · rw [if_neg h2]; exact ih _ _ (by omega)

/-- Behaviour of the `skipTemplate` loop with adequate fuel. -/
theorem stGo_bounds {s : List Char} :
    ∀ f i, s.length + 1 ≤ i + f → i ≤ s.length + 1 →
      i ≤ stGo s f i ∧ stGo s f i ≤ s.length + 1 ∧
      ((∃ k, i ≤ k ∧ k < s.length ∧ chAt s k = some btk ∧
          stGo s f i = k + 1) ∨ s.length ≤ stGo s f i) := by
  intro f
  induction f with
  | zero =>
    intro i h1 h2
    simp only [stGo]
    exact ⟨Nat.le_refl i, h2, Or.inr (by omega)⟩
  | succ f ih =>
    intro i h1 h2
    unfold stGo
    cases hc : chAt s i with
    | none =>
      exact ⟨Nat.le_refl i, h2, Or.inr (chAt_none_le hc)⟩
    | some c =>
      simp only []
      have hi : i < s.length := chAt_lt hc
      by_cases hb : c = bsl
      · rw [if_pos hb]
        have := ih (i + 2) (by omega) (by omega)
        refine ⟨by omega, this.2.1, ?_⟩
        cases this.2.2 with
        | inl hl =>
          obtain ⟨k, hk1, hk2, hk3, hk4⟩ := hl
          exact Or.inl ⟨k, by omega, hk2, hk3, hk4⟩
        | inr hr => exact Or.inr hr
      · rw [if_neg hb]
        by_cases hdo : c = dol ∧ chAt s (i + 1) = some obr
        · rw [if_pos hdo]
          have hge : i + 2 ≤ interpGo s (s.length + 1) 1 (i + 2) :=
            interpGo_ge s _ _ _
          have hle : interpGo s (s.length + 1) 1 (i + 2) ≤ s.length + 1 :=
            interpGo_le s _ _ _ (by omega)
          have := ih (interpGo s (s.length + 1) 1 (i + 2)) (by omega) hle
          refine ⟨by omega, this.2.1, ?_⟩
          cases this.2.2 with
          | inl hl =>
            obtain ⟨k, hk1, hk2, hk3, hk4⟩ := hl
            exact Or.inl ⟨k, by omega, hk2, hk3, hk4⟩
          | inr hr => exact Or.inr hr
        · rw [if_neg hdo]
          by_cases ht : c = btk
          · rw [if_pos ht]
            exact ⟨Nat.le_succ i, by omega,
              Or.inl ⟨i, Nat.le_refl i, hi, ht ▸ hc, rfl⟩⟩
          · rw [if_neg ht]
            have := ih (i + 1) (by omega) (by omega)
            refine ⟨by omega, this.2.1, ?_⟩
            cases this.2.2 with
            | inl hl =>
              obtain ⟨k, hk1, hk2, hk3, hk4⟩ := hl
              exact Or.inl ⟨k, by omega, hk2, hk3, hk4⟩
            | inr hr => exact Or.inr hr

/-- Claim C5 (amended): with a backtick at `pos`, `skipTemplate`
advances, never returns more than `length + 1`, and returns either the
offset just past a backtick of the buffer or an offset at or past the
end if unterminated.  The braces of a `${...}` interpolation are
balanced by raw counting only: strings inside the interpolation are
not skipped, so a quoted `\x7d` inside the interpolation does end the
brace count early (see the counterexample for the claim as stated). -/
theorem c5_skipTemplate_amended (s : List Char) (pos : Nat)
    (hpos : pos < s.length) (hq : chAt s pos = some btk) :
    pos < skipTemplate s pos ∧ skipTemplate s pos ≤ s.length + 1 ∧
    ((∃ k, pos < k ∧ k < s.length ∧ chAt s k = some btk ∧
        skipTemplate s pos = k + 1) ∨ s.length ≤ skipTemplate s pos) := by
  unfold skipTemplate
  have hb := @stGo_bounds s (s.length + 1) (pos + 1)
    (by omega) (by omega)
  refine ⟨by omega, hb.2.1, ?_⟩
  cases hb.2.2 with
  | inl hl =>
    obtain ⟨k, hk1, hk2, hk3, hk4⟩ := hl
    exact Or.inl ⟨k, by omega, hk2, hk3, hk4⟩
  | inr hr => exact Or.inr hr

theorem c5_skipTemplate_amended_witness :
    0 < skipTemplate [btk, btk] 0 ∧
    skipTemplate [btk, btk] 0 ≤ [btk, btk].length + 1 ∧
    ((∃ k, 0 < k ∧ k < [btk, btk].length ∧
        chAt [btk, btk] k = some btk ∧ skipTemplate [btk, btk] 0 = k + 1) ∨
      [btk, btk].length ≤ skipTemplate [btk, btk] 0) :=
  c5_skipTemplate_amended [btk, btk] 0 (by decide) (by decide)

/-- Modelled from the spec: the Scanner contract says `skipTemplate`,
"on encountering an interpolation start, recursively balances nested
braces belonging to the interpolated expression (which may itself
contain further strings, templates, or object literals) before
resuming template-literal scanning".  The code's interpolation loop is
missing that string handling; this reference version balances the
interpolation braces while skipping quoted strings with `skipQuoted`,
as the contract requires for the string case. -/
def interpSpecGo (s : List Char) : Nat → Int → Nat → Nat
  | 0, _, i => i
  | f + 1, d, i =>
    if d ≤ 0 then i
    else
      match chAt s i with
      | none => i
      | some c =>
        if c = dqu ∨ c = squ then interpSpecGo s f d (skipQuoted s i)
        else if c = obr then interpSpecGo s f (d + 1) (i + 1)
        else if c = cbr then interpSpecGo s f (d - 1) (i + 1)
        else interpSpecGo s f d (i + 1)

/-- Modelled from the spec: `skipTemplate` with the contract's
string-aware interpolation balancing (see `interpSpecGo`). -/
def stSpecGo (s : List Char) : Nat → Nat → Nat
  | 0, i => i
  | f + 1, i =>
    match chAt s i with
    | none => i
    | some c =>
      if c = bsl then stSpecGo s f (i + 2)
      else if c = dol ∧ chAt s (i + 1) = some obr then
        stSpecGo s f (interpSpecGo s (s.length + 1) 1 (i + 2))
      else if c = btk then i + 1
      else stSpecGo s f (i + 1)

/-- Modelled from the spec: the string-aware `skipTemplate`. -/
def skipTemplateSpec (s : List Char) (pos : Nat) : Nat :=
  stSpecGo s (s.length + 1) (pos + 1)

/-- The template whose interpolation holds the string `"\x7d`​"`. -/
def c5str : List Char := [btk, dol, obr, dqu, cbr, btk, dqu, cbr, btk]

/-- Claim C5 as stated is false: in the template
`` `${"}`"}` `` the quoted `\x7d` at offset 4 sits inside the
interpolation's string literal, yet the code's raw brace count treats
it as the end of the interpolation and then mistakes the quoted
backtick at offset 5 for the template's closer, returning 6; the
spec-modelled string-aware scanner returns 9, just past the real
closing backtick at offset 8. -/
theorem c5_counterexample :
    chAt c5str 0 = some btk ∧
    skipTemplate c5str 0 = 6 ∧
    skipTemplateSpec c5str 0 = 9 ∧
    c5str.length = 9 ∧
    chAt c5str 8 = some btk := by
  refine ⟨by decide, by decide, by decide, by decide, by decide⟩

end Rewriter

namespace Rewriter

/-! ### Scan locality machinery shared by claims C7 and C6 -/

/-- Splitting a tail equation at a prefix length. -/
theorem drop_point {s L M : List Char} {i : Nat} (h : s.drop i = L ++ M) :
    s.drop (i + L.length) = M := by
  have h2 := congrArg (List.drop L.length) h
  rw [List.drop_drop, List.drop_left] at h2
  exact h2

/-- The character at a position described by a tail equation. -/
theorem chAt_of_drop {s t : List Char} {i : Nat} {a : Char}
    (h : s.drop i = a :: t) : chAt s i = some a := by
  unfold chAt
  rw [h]
  rfl

/-- The `skipQuoted` loop never moves backwards. -/
theorem sqGo_ge (s : List Char) (q : Option Char) :
    ∀ f i, i ≤ sqGo s q f i := by
  intro f
  induction f with
  | zero => intro i; simp only [sqGo]; exact Nat.le_refl i
  | succ f ih =>
    intro i
    unfold sqGo
    cases chAt s i with
    | none => exact Nat.le_refl i
    | some c =>
      simp only []
      by_cases h1 : c = bsl
      · rw [if_pos h1]; exact le_trans (by omega) (ih (i + 2))
      · rw [if_neg h1]
        by_cases h2 : some c = q
        · rw [if_pos h2]; exact Nat.le_succ i
        · rw [if_neg h2]; exact le_trans (Nat.le_succ i) (ih (i + 1))

/-- The `skipTemplate` loop never moves backwards. -/
theorem stGo_ge (s : List Char) : ∀ f i, i ≤ stGo s f i := by
  intro f
  induction f with
  | zero => intro i; simp only [stGo]; exact Nat.le_refl i
  | succ f ih =>
    intro i
    unfold stGo
    cases chAt s i with
    | none => exact Nat.le_refl i
    | some c =>
      simp only []
      by_cases h1 : c = bsl
      · rw [if_pos h1]; exact le_trans (by omega) (ih (i + 2))
      · rw [if_neg h1]
        by_cases h2 : c = dol ∧ chAt s (i + 1) = some obr
        · rw [if_pos h2]
          exact le_trans (le_trans (by omega) (interpGo_ge s _ _ (i + 2)))
            (ih _)
        · rw [if_neg h2]
          by_cases h3 : c = btk
          · rw [if_pos h3]; exact Nat.le_succ i
          · rw [if_neg h3]; exact le_trans (Nat.le_succ i) (ih (i + 1))

/-- `skipQuoted` strictly advances. -/
theorem skipQuoted_gt (s : List Char) (i : Nat) : i < skipQuoted s i :=
  lt_of_lt_of_le (Nat.lt_succ_self i) (sqGo_ge s _ _ (i + 1))

/-- `skipTemplate` strictly advances. -/
theorem skipTemplate_gt (s : List Char) (i : Nat) : i < skipTemplate s i :=
  lt_of_lt_of_le (Nat.lt_succ_self i) (stGo_ge s _ (i + 1))

/-- Scanning a quote-free, escape-free span: the `skipQuoted` loop
jumps to just past the closing quote. -/
theorem sqGo_jump {s tail : List Char} {q : Char} (hqb : q ≠ bsl) :
    ∀ (content : List Char) f i,
      (∀ x ∈ content, ¬x = bsl ∧ ¬x = q) →
      s.drop i = content ++ q :: tail → content.length < f →
      sqGo s (some q) f i = i + content.length + 1 := by
  intro content
  induction content with
  | nil =>
    intro f i _ hdrop hf
    obtain ⟨f', rfl⟩ : ∃ f', f = f' + 1 := ⟨f - 1, by omega⟩
    unfold sqGo
    rw [chAt_of_drop hdrop]
    simp only []
    rw [if_neg hqb]
    simp
  | cons a cs ih =>
    intro f i hfree hdrop hf
    obtain ⟨f', rfl⟩ : ∃ f', f = f' + 1 := ⟨f - 1, by omega⟩
    have hdropa : s.drop i = a :: (cs ++ q :: tail) := by
      rw [hdrop]; rfl
    have hnext : s.drop (i + 1) = cs ++ q :: tail := by
      have := congrArg List.tail hdropa
      rw [List.tail_drop] at this
      exact this
    have ha := hfree a (List.mem_cons_self a cs)
    unfold sqGo
    rw [chAt_of_drop hdropa]
    simp only []
    rw [if_neg ha.1, if_neg (fun he => ha.2 (Option.some.inj he))]
    rw [ih f' (i + 1) (fun x hx => hfree x (List.mem_cons_of_mem a hx))
      hnext (by simp only [List.length_cons] at hf; omega)]
    simp only [List.length_cons]
    omega

/-- `skipQuoted` over a rendered string literal. -/
theorem skipQuoted_jump {s tail content : List Char} {q : Char}
    {pos : Nat} (hq : q = dqu ∨ q = squ)
    (hfree : ∀ x ∈ content, ¬x = bsl ∧ ¬x = q)
    (hpos : chAt s pos = some q)
    (hdrop : s.drop (pos + 1) = content ++ q :: tail) :
    skipQuoted s pos = pos + content.length + 2 := by
  have hqb : q ≠ bsl := by
    cases hq with
    | inl h => rw [h]; decide
    | inr h => rw [h]; decide
  have hlen : content.length + 1 + tail.length = s.length - (pos + 1) := by
    have := congrArg List.length hdrop
    rw [List.length_drop] at this
    simp only [List.length_append, List.length_cons] at this
    omega
  have hflt : content.length < s.length + 1 := by omega
  unfold skipQuoted
  rw [hpos, sqGo_jump hqb content (s.length + 1) (pos + 1) hfree hdrop hflt]
  omega

/-- Scanning a backtick-, escape- and dollar-free span: the
`skipTemplate` loop jumps to just past the closing backtick. -/
theorem stGo_jump {s tail : List Char} :
    ∀ (content : List Char) f i,
      (∀ x ∈ content, ¬x = bsl ∧ ¬x = btk ∧ ¬x = dol) →
      s.drop i = content ++ btk :: tail → content.length < f →
      stGo s f i = i + content.length + 1 := by
  intro content
  induction content with
  | nil =>
    intro f i _ hdrop hf
    obtain ⟨f', rfl⟩ : ∃ f', f = f' + 1 := ⟨f - 1, by omega⟩
    unfold stGo
    rw [chAt_of_drop hdrop]
    simp only []
    rw [if_neg (by decide : ¬btk = bsl),
      if_neg (fun h => absurd h.1 (by decide))]
    simp
  | cons a cs ih =>
    intro f i hfree hdrop hf
    obtain ⟨f', rfl⟩ : ∃ f', f = f' + 1 := ⟨f - 1, by omega⟩
    have hdropa : s.drop i = a :: (cs ++ btk :: tail) := by
      rw [hdrop]; rfl
    have hnext : s.drop (i + 1) = cs ++ btk :: tail := by
      have := congrArg List.tail hdropa
      rw [List.tail_drop] at this
      exact this
    have ha := hfree a (List.mem_cons_self a cs)
    unfold stGo
    rw [chAt_of_drop hdropa]
    simp only []
    rw [if_neg ha.1, if_neg (fun h => ha.2.2 h.1), if_neg ha.2.1]
    rw [ih f' (i + 1) (fun x hx => hfree x (List.mem_cons_of_mem a hx))
      hnext (by simp only [List.length_cons] at hf; omega)]
    simp only [List.length_cons]
    omega

/-- `skipTemplate` over a rendered template literal. -/
theorem skipTemplate_jump {s tail content : List Char} {pos : Nat}
    (hfree : ∀ x ∈ content, ¬x = bsl ∧ ¬x = btk ∧ ¬x = dol)
    (hdrop : s.drop (pos + 1) = content ++ btk :: tail) :
    skipTemplate s pos = pos + content.length + 2 := by
  have hlen : content.length + 1 + tail.length = s.length - (pos + 1) := by
    have := congrArg List.length hdrop
    rw [List.length_drop] at this
    simp only [List.length_append, List.length_cons] at this
    omega
  have hflt : content.length < s.length + 1 := by omega
  unfold skipTemplate
  rw [stGo_jump content (s.length + 1) (pos + 1) hfree hdrop hflt]
  omega

end Rewriter

namespace Rewriter

/-- Past the end the balanced scan always reports not-found. -/
theorem fbGo_out {s : List Char} {opn : Option Char} {close : Char}
    (h : s.length ≤ i) : ∀ f d, fbGo s opn close f d i = -1 := by
  intro f d
  cases f with
  | zero => rfl
  | succ f =>
    unfold fbGo
    rw [chAt_none h]

/-- The balanced scan is independent of the fuel once the fuel covers
the remaining buffer (the cursor strictly advances each iteration). -/
theorem fbGo_fuel {s : List Char} {opn : Option Char} {close : Char} :
    ∀ f f' d i, s.length + 1 ≤ f + i → s.length + 1 ≤ f' + i →
      fbGo s opn close f d i = fbGo s opn close f' d i := by
  intro f
  induction f with
  | zero =>
    intro f' d i h1 h2
    rw [show fbGo s opn close 0 d i = -1 from rfl, fbGo_out (by omega)]
  | succ f ih =>
    intro f' d i h1 h2
    cases f' with
    | zero =>
      rw [show fbGo s opn close 0 d i = -1 from rfl, fbGo_out (by omega)]
    | succ f' =>
      unfold fbGo
      cases hc : chAt s i with
      | none => rfl
      | some c =>
        simp only []
        have hi : i < s.length := chAt_lt hc
        by_cases hq : c = dqu ∨ c = squ
        · rw [if_pos hq, if_pos hq]
          exact ih f' d (skipQuoted s i)
            (by have := skipQuoted_gt s i; omega)
            (by have := skipQuoted_gt s i; omega)
        · rw [if_neg hq, if_neg hq]
          by_cases ht : c = btk
          · rw [if_pos ht, if_pos ht]
            exact ih f' d (skipTemplate s i)
              (by have := skipTemplate_gt s i; omega)
              (by have := skipTemplate_gt s i; omega)
          · rw [if_neg ht, if_neg ht]
            by_cases ho : some c = opn
            · rw [if_pos ho, if_pos ho]
              exact ih f' (d + 1) (i + 1) (by omega) (by omega)
            · rw [if_neg ho, if_neg ho]
              by_cases hcl : c = close
              · rw [if_pos hcl, if_pos hcl]
                by_cases hd : d - 1 = 0
                · rw [if_pos hd, if_pos hd]
                · rw [if_neg hd, if_neg hd]
                  exact ih f' (d - 1) (i + 1) (by omega) (by omega)
              · rw [if_neg hcl, if_neg hcl]
                exact ih f' d (i + 1) (by omega) (by omega)

/-- One neutral-character step of the balanced scan. -/
theorem fbGo_step_other {s : List Char} {opn : Option Char}
    {close : Char} {d : Int} {i : Nat} {c : Char}
    (hc : chAt s i = some c) (h1 : ¬(c = dqu ∨ c = squ)) (h2 : ¬c = btk)
    (h3 : ¬some c = opn) (h4 : ¬c = close) :
    fbGo s opn close (s.length + 1) d i =
      fbGo s opn close (s.length + 1) d (i + 1) := by
  unfold fbGo
  rw [hc]
  simp only []
  rw [if_neg h1, if_neg h2, if_neg h3, if_neg h4]
  exact fbGo_fuel s.length (s.length + 1) d (i + 1) (by omega) (by omega)

/-- One string-literal step of the balanced scan. -/
theorem fbGo_step_quote {s : List Char} {opn : Option Char}
    {close : Char} {d : Int} {i : Nat} {c : Char}
    (hc : chAt s i = some c) (h1 : c = dqu ∨ c = squ) :
    fbGo s opn close (s.length + 1) d i =
      fbGo s opn close (s.length + 1) d (skipQuoted s i) := by
  unfold fbGo
  rw [hc]
  simp only []
  rw [if_pos h1]
  exact fbGo_fuel s.length (s.length + 1) d (skipQuoted s i)
    (by have := skipQuoted_gt s i; have := chAt_lt hc; omega)
    (by have := skipQuoted_gt s i; have := chAt_lt hc; omega)

/-- One template-literal step of the balanced scan. -/
theorem fbGo_step_tick {s : List Char} {opn : Option Char}
    {close : Char} {d : Int} {i : Nat}
    (hc : chAt s i = some btk) (h1 : ¬(btk = dqu ∨ btk = squ)) :
    fbGo s opn close (s.length + 1) d i =
      fbGo s opn close (s.length + 1) d (skipTemplate s i) := by
  unfold fbGo
  rw [hc]
  simp only []
  rw [if_neg h1, if_pos trivial]
  exact fbGo_fuel s.length (s.length + 1) d (skipTemplate s i)
    (by have := skipTemplate_gt s i; have := chAt_lt hc; omega)
    (by have := skipTemplate_gt s i; have := chAt_lt hc; omega)

/-- One same-type-opener step of the balanced scan. -/
theorem fbGo_step_open {s : List Char} {o close : Char} {d : Int}
    {i : Nat} (hc : chAt s i = some o) (h1 : ¬(o = dqu ∨ o = squ))
    (h2 : ¬o = btk) :
    fbGo s (some o) close (s.length + 1) d i =
      fbGo s (some o) close (s.length + 1) (d + 1) (i + 1) := by
  unfold fbGo
  rw [hc]
  simp only []
  rw [if_neg h1, if_neg h2, if_pos trivial]
  exact fbGo_fuel s.length (s.length + 1) (d + 1) (i + 1)
    (by omega) (by omega)

/-- One closer step of the balanced scan. -/
theorem fbGo_step_close {s : List Char} {o close : Char} {d : Int}
    {i : Nat} (hc : chAt s i = some close)
    (h1 : ¬(close = dqu ∨ close = squ)) (h2 : ¬close = btk)
    (h3 : ¬some close = some o) :
    fbGo s (some o) close (s.length + 1) d i =
      if d - 1 = 0 then (i : Int)
      else fbGo s (some o) close (s.length + 1) (d - 1) (i + 1) := by
  unfold fbGo
  rw [hc]
  simp only []
  rw [if_neg h1, if_neg h2, if_neg h3, if_pos trivial]
  by_cases hd : d - 1 = 0
  · rw [if_pos hd, if_pos hd]
  · rw [if_neg hd, if_neg hd]
    exact fbGo_fuel s.length (s.length + 1) (d - 1) (i + 1)
      (by omega) (by omega)

end Rewriter

namespace Rewriter

/-- Dropping one more element from a described tail. -/
theorem drop_succ_of_drop {s r : List Char} {i : Nat} {a : Char}
    (h : s.drop i = a :: r) : s.drop (i + 1) = r := by
  have h2 := congrArg List.tail h
  rw [List.tail_drop] at h2
  exact h2

/-- Well-formed interior text for a balanced `(o, c)` region, as a
sequence of neutral characters, string literals, template literals and
nested same-type balanced pairs. -/
inductive BTree where
  | eps
  | chr (a : Char) (rest : BTree)
  | str (q : Char) (content : List Char) (rest : BTree)
  | tmpl (content : List Char) (rest : BTree)
  | nest (inner rest : BTree)

/-- The text denoted by a `BTree` relative to opener `o`, closer `c`. -/
def renderT (o c : Char) : BTree → List Char
  | .eps => []
  | .chr a rest => a :: renderT o c rest
  | .str q content rest => q :: (content ++ q :: renderT o c rest)
  | .tmpl content rest => btk :: (content ++ btk :: renderT o c rest)
  | .nest inner rest => o :: (renderT o c inner ++ c :: renderT o c rest)

/-- Well-formedness of a `BTree`: neutral characters are none of the
scanner's special characters, string contents avoid their own quote
and the escape, template contents avoid backtick, escape and `$`. -/
def validT (o c : Char) : BTree → Bool
  | .eps => true
  | .chr a rest =>
    !(a == o) && !(a == c) && !(a == dqu) && !(a == squ) && !(a == btk) &&
      validT o c rest
  | .str q content rest =>
    (q == dqu || q == squ) &&
      !(content.any fun x => x == bsl || x == q) && validT o c rest
  | .tmpl content rest =>
    !(content.any fun x => x == bsl || x == btk || x == dol) &&
      validT o c rest
  | .nest inner rest => validT o c inner && validT o c rest

/-- The balanced scan traverses any rendered well-formed interior
without changing the depth: strings, templates and nested pairs are
skipped wholesale, and quoted bracket characters never affect depth. -/
theorem fbGo_renderT {s : List Char} {o c : Char}
    (ho : o = obr ∧ c = cbr ∨ o = lbk ∧ c = rbk) :
    ∀ t : BTree, validT o c t = true →
      ∀ d i tail, s.drop i = renderT o c t ++ tail → (1 : Int) ≤ d →
        fbGo s (some o) c (s.length + 1) d i =
          fbGo s (some o) c (s.length + 1) d (i + (renderT o c t).length) := by
  have hoq : ¬(o = dqu ∨ o = squ) := by
    rcases ho with ⟨h, _⟩ | ⟨h, _⟩ <;> subst h <;> decide
  have hot : ¬o = btk := by
    rcases ho with ⟨h, _⟩ | ⟨h, _⟩ <;> subst h <;> decide
  have hcq : ¬(c = dqu ∨ c = squ) := by
    rcases ho with ⟨_, h⟩ | ⟨_, h⟩ <;> subst h <;> decide
  have hct : ¬c = btk := by
    rcases ho with ⟨_, h⟩ | ⟨_, h⟩ <;> subst h <;> decide
  have hco : ¬some c = some o := by
    rcases ho with ⟨h1, h2⟩ | ⟨h1, h2⟩ <;> subst h1 <;> subst h2 <;> decide
  intro t
  induction t with
  | eps =>
    intro hv d i tail hdrop hd
    simp [renderT]
  | chr a rest ih =>
    intro hv d i tail hdrop hd
    simp only [validT, Bool.and_eq_true, Bool.not_eq_true',
      beq_eq_false_iff_ne] at hv
    obtain ⟨⟨⟨⟨⟨h1, h2⟩, h3⟩, h4⟩, h5⟩, hrest⟩ := hv
    simp only [renderT, List.cons_append] at hdrop
    have hstep := @fbGo_step_other s (some o) c d i a (chAt_of_drop hdrop)
      (by push_neg; exact ⟨h3, h4⟩) h5
      (fun he => h1 (Option.some.inj he)) h2
    rw [hstep, ih hrest d (i + 1) tail (drop_succ_of_drop hdrop) hd]
    congr 1
    simp only [renderT, List.length_cons]
    omega
  | str q content rest ih =>
    intro hv d i tail hdrop hd
    simp only [validT, Bool.and_eq_true, Bool.or_eq_true, beq_iff_eq,
      Bool.not_eq_true', List.any_eq_false, not_or] at hv
    obtain ⟨⟨hq, hfree⟩, hrest⟩ := hv
    simp only [renderT, List.cons_append, List.append_assoc] at hdrop
    have hdrop2 : s.drop i =
        q :: (content ++ q :: (renderT o c rest ++ tail)) := by
      rw [hdrop]
    have hnext : s.drop (i + 1) =
        content ++ q :: (renderT o c rest ++ tail) :=
      drop_succ_of_drop hdrop2
    have hjump := skipQuoted_jump hq hfree (chAt_of_drop hdrop2) hnext
    have hstep := @fbGo_step_quote s (some o) c d i q
      (chAt_of_drop hdrop2) hq
    have hdrop3 : s.drop i =
        (q :: (content ++ [q])) ++ (renderT o c rest ++ tail) := by
      rw [hdrop2]; simp
    have h4 := drop_point hdrop3
    simp only [List.length_cons, List.length_append,
      List.length_nil] at h4
    have hpos : i + (content.length + 1 + 1) =
        i + content.length + 2 := by omega
    rw [hpos] at h4
    rw [hstep, hjump, ih hrest d _ tail h4 hd]
    congr 1
    simp only [renderT, List.length_cons, List.length_append]
    omega
  | tmpl content rest ih =>
    intro hv d i tail hdrop hd
    simp only [validT, Bool.and_eq_true, Bool.or_eq_true, beq_iff_eq,
      Bool.not_eq_true', List.any_eq_false, not_or] at hv
    obtain ⟨hfree, hrest⟩ := hv
    simp only [renderT, List.cons_append, List.append_assoc] at hdrop
    have hdrop2 : s.drop i =
        btk :: (content ++ btk :: (renderT o c rest ++ tail)) := by
      rw [hdrop]
    have hnext : s.drop (i + 1) =
        content ++ btk :: (renderT o c rest ++ tail) :=
      drop_succ_of_drop hdrop2
    have hjump := skipTemplate_jump
      (fun x hx => ⟨(hfree x hx).1.1, (hfree x hx).1.2, (hfree x hx).2⟩)
      hnext
    have hstep := @fbGo_step_tick s (some o) c d i
      (chAt_of_drop hdrop2) (by decide)
    have hdrop3 : s.drop i =
        (btk :: (content ++ [btk])) ++ (renderT o c rest ++ tail) := by
      rw [hdrop2]; simp
    have h4 := drop_point hdrop3
    simp only [List.length_cons, List.length_append,
      List.length_nil] at h4
    have hpos : i + (content.length + 1 + 1) =
        i + content.length + 2 := by omega
    rw [hpos] at h4
    rw [hstep, hjump, ih hrest d _ tail h4 hd]
    congr 1
    simp only [renderT, List.length_cons, List.length_append]
    omega
  | nest inner rest ih_inner ih_rest =>
    intro hv d i tail hdrop hd
    simp only [validT, Bool.and_eq_true] at hv
    obtain ⟨hin, hrest⟩ := hv
    simp only [renderT, List.cons_append, List.append_assoc] at hdrop
    have hdrop2 : s.drop i =
        o :: (renderT o c inner ++ (c :: (renderT o c rest ++ tail))) := by
      rw [hdrop]
    have hstep1 := @fbGo_step_open s o c d i (chAt_of_drop hdrop2)
      hoq hot
    have hnext : s.drop (i + 1) =
        renderT o c inner ++ (c :: (renderT o c rest ++ tail)) :=
      drop_succ_of_drop hdrop2
    have hmid := ih_inner hin (d + 1) (i + 1) _ hnext (by omega)
    have hclosepos := drop_point hnext
    have hstep2 := @fbGo_step_close s o c (d + 1)
      (i + 1 + (renderT o c inner).length) (chAt_of_drop hclosepos)
      hcq hct hco
    have hd0 : ¬(d + 1 - 1 = 0) := by omega
    rw [if_neg hd0] at hstep2
    have hd1 : d + 1 - 1 = d := by omega
    rw [hd1] at hstep2
    have hlast : s.drop (i + 1 + (renderT o c inner).length + 1) =
        renderT o c rest ++ tail :=
      drop_succ_of_drop hclosepos
    have hrest2 := ih_rest hrest d _ tail hlast hd
    rw [hstep1, hmid, hstep2, hrest2]
    congr 1
    simp only [renderT, List.length_cons, List.length_append]
    omega

end Rewriter

namespace Rewriter

/-- `findBalancedEnd` on a rendered balanced region returns exactly
the offset of the matching closer, for any surrounding text. -/
theorem fbe_balanced {o c : Char}
    (ho : o = obr ∧ c = cbr ∨ o = lbk ∧ c = rbk)
    (t : BTree) (hv : validT o c t = true) (pre suf : List Char) :
    findBalancedEnd (pre ++ (o :: (renderT o c t ++ [c])) ++ suf)
      pre.length =
    ((pre.length + (renderT o c t).length + 1 : Nat) : Int) := by
  have hoq : ¬(o = dqu ∨ o = squ) := by
    rcases ho with ⟨h, _⟩ | ⟨h, _⟩ <;> subst h <;> decide
  have hot : ¬o = btk := by
    rcases ho with ⟨h, _⟩ | ⟨h, _⟩ <;> subst h <;> decide
  have hcq : ¬(c = dqu ∨ c = squ) := by
    rcases ho with ⟨_, h⟩ | ⟨_, h⟩ <;> subst h <;> decide
  have hct : ¬c = btk := by
    rcases ho with ⟨_, h⟩ | ⟨_, h⟩ <;> subst h <;> decide
  have hco : ¬some c = some o := by
    rcases ho with ⟨h1, h2⟩ | ⟨h1, h2⟩ <;> subst h1 <;> subst h2 <;> decide
  set s := pre ++ (o :: (renderT o c t ++ [c])) ++ suf with hs
  have hdrop0 : s.drop pre.length =
      o :: (renderT o c t ++ (c :: suf)) := by
    rw [hs, List.append_assoc, List.drop_left]
    simp
  have hcho : chAt s pre.length = some o := chAt_of_drop hdrop0
  have hclose : (if chAt s pre.length = some obr then cbr else rbk) = c := by
    rcases ho with ⟨h1, h2⟩ | ⟨h1, h2⟩
    · subst h1; subst h2; rw [hcho]; simp
    · subst h1; subst h2; rw [hcho]
      rw [if_neg (by decide : ¬(some lbk = some obr))]
  unfold findBalancedEnd
  rw [hclose, hcho]
  rw [@fbGo_step_open s o c 0 pre.length hcho hoq hot]
  rw [fbGo_renderT ho t hv (0 + 1) (pre.length + 1) (c :: suf)
    (drop_succ_of_drop hdrop0) (by omega)]
  have hclosedrop : s.drop (pre.length + 1 + (renderT o c t).length) =
      c :: suf := drop_point (drop_succ_of_drop hdrop0)
  rw [@fbGo_step_close s o c (0 + 1)
    (pre.length + 1 + (renderT o c t).length) (chAt_of_drop hclosedrop)
    hcq hct hco]
  rw [if_pos (by omega : (0 : Int) + 1 - 1 = 0)]
  omega

/-- Every return of the balanced scan is either `-1` or the offset of
an occurrence of the sought closing character at or after the start. -/
theorem fbGo_shape {s : List Char} {opn : Option Char} {close : Char} :
    ∀ f d i, fbGo s opn close f d i = -1 ∨
      ∃ k, i ≤ k ∧ k < s.length ∧ chAt s k = some close ∧
        fbGo s opn close f d i = k := by
  intro f
  induction f with
  | zero => intro d i; exact Or.inl rfl
  | succ f ih =>
    intro d i
    unfold fbGo
    cases hc : chAt s i with
    | none => exact Or.inl rfl
    | some ch =>
      simp only []
      by_cases h1 : ch = dqu ∨ ch = squ
      · rw [if_pos h1]
        rcases ih d (skipQuoted s i) with h | ⟨k, hk1, hk2, hk3, hk4⟩
        · exact Or.inl h
        · exact Or.inr ⟨k, by have := skipQuoted_gt s i; omega, hk2,
            hk3, hk4⟩
      · rw [if_neg h1]
        by_cases h2 : ch = btk
        · rw [if_pos h2]
          rcases ih d (skipTemplate s i) with h | ⟨k, hk1, hk2, hk3, hk4⟩
          · exact Or.inl h
          · exact Or.inr ⟨k, by have := skipTemplate_gt s i; omega, hk2,
              hk3, hk4⟩
        · rw [if_neg h2]
          by_cases h3 : some ch = opn
          · rw [if_pos h3]
            rcases ih (d + 1) (i + 1) with h | ⟨k, hk1, hk2, hk3, hk4⟩
            · exact Or.inl h
            · exact Or.inr ⟨k, by omega, hk2, hk3, hk4⟩
          · rw [if_neg h3]
            by_cases h4 : ch = close
            · rw [if_pos h4]
              by_cases h5 : d - 1 = 0
              · rw [if_pos h5]
                exact Or.inr ⟨i, Nat.le_refl i, chAt_lt hc,
                  h4 ▸ hc, rfl⟩
              · rw [if_neg h5]
                rcases ih (d - 1) (i + 1) with h | ⟨k, hk1, hk2, hk3, hk4⟩
                · exact Or.inl h
                · exact Or.inr ⟨k, by omega, hk2, hk3, hk4⟩
            · rw [if_neg h4]
              rcases ih d (i + 1) with h | ⟨k, hk1, hk2, hk3, hk4⟩
              · exact Or.inl h
              · exact Or.inr ⟨k, by omega, hk2, hk3, hk4⟩

/-- `findBalancedEnd` either reports not-found or lands on its own
closing character. -/
theorem findBalancedEnd_shape (s : List Char) (p : Nat) :
    findBalancedEnd s p = -1 ∨
      ∃ k, p ≤ k ∧ k < s.length ∧
        chAt s k = some (if chAt s p = some obr then cbr else rbk) ∧
        findBalancedEnd s p = k := by
  unfold findBalancedEnd
  exact fbGo_shape _ _ _

/-- Claim C7: on any string holding at `pos` an opener of a rendered
well-formed balanced region, `findBalancedEnd` returns the offset of
the corresponding closing character — bracket characters inside string
or template contents (which `renderT` permits freely) never affect the
depth — and in general the scan returns either `-1` (buffer exhausted
before depth returns to zero) or the offset of an occurrence of the
matching closing character. -/
theorem c7_findBalancedEnd (o c : Char) (t : BTree) (pre suf : List Char)
    (ho : o = obr ∧ c = cbr ∨ o = lbk ∧ c = rbk)
    (hv : validT o c t = true) :
    findBalancedEnd (pre ++ (o :: (renderT o c t ++ [c])) ++ suf)
        pre.length =
      ((pre.length + (renderT o c t).length + 1 : Nat) : Int) ∧
    (∀ (s : List Char) (p : Nat), findBalancedEnd s p = -1 ∨
      ∃ k, p ≤ k ∧ k < s.length ∧
        chAt s k = some (if chAt s p = some obr then cbr else rbk) ∧
        findBalancedEnd s p = k) :=
  ⟨fbe_balanced ho t hv pre suf, findBalancedEnd_shape⟩

theorem c7_findBalancedEnd_witness :
    findBalancedEnd ("\x7ba\"\x7d\"\x7d".toList) 0 = 5 ∧
    findBalancedEnd
        (([] : List Char) ++
          (obr :: (renderT obr cbr (.chr 'a' (.str dqu [cbr] .eps)) ++
            [cbr])) ++ ([] : List Char))
        ([] : List Char).length =
      ((([] : List Char).length +
        (renderT obr cbr (.chr 'a' (.str dqu [cbr] .eps))).length + 1 :
        Nat) : Int) :=
  ⟨by decide,
    (c7_findBalancedEnd obr cbr (.chr 'a' (.str dqu [cbr] .eps)) [] []
      (Or.inl ⟨rfl, rfl⟩) (by decide)).1⟩

end Rewriter

namespace Rewriter

/-! ### Cursor-scan lemmas for claim C6 -/

/-- A scan stops immediately on a non-matching character. -/
theorem scanWhile_stop {p : Char → Bool} {s : List Char} {i f : Nat}
    {ch : Char} (hf : 0 < f) (hc : chAt s i = some ch)
    (hp : p ch = false) : scanWhile p s f i = i := by
  obtain ⟨f', rfl⟩ : ∃ f', f = f' + 1 := ⟨f - 1, by omega⟩
  unfold scanWhile
  rw [hc]
  simp [hp]

/-- A scan consumes exactly one matching character. -/
theorem scanWhile_one {p : Char → Bool} {s : List Char} {i f : Nat}
    {ch ch' : Char} (hf : 1 < f) (h1 : chAt s i = some ch)
    (hp1 : p ch = true) (h2 : chAt s (i + 1) = some ch')
    (hp2 : p ch' = false) : scanWhile p s f i = i + 1 := by
  obtain ⟨f', rfl⟩ : ∃ f', f = f' + 2 := ⟨f - 2, by omega⟩
  show scanWhile p s (f' + 1 + 1) i = i + 1
  unfold scanWhile
  rw [h1]
  simp only [hp1, if_true]
  exact scanWhile_stop (by omega) h2 hp2

/-- A scan whose whole remaining tail matches runs to the end. -/
theorem scanWhile_end {p : Char → Bool} {s : List Char} :
    ∀ (v : List Char) (f i : Nat), s.drop i = v →
      (∀ x ∈ v, p x = true) → v.length < f → i ≤ s.length →
      scanWhile p s f i = s.length := by
  intro v
  induction v with
  | nil =>
    intro f i hd _ hf hi
    obtain ⟨f', rfl⟩ : ∃ f', f = f' + 1 := ⟨f - 1, by omega⟩
    have hlen : s.length ≤ i := by
      have h2 := congrArg List.length hd
      rw [List.length_drop] at h2
      simp only [List.length_nil] at h2
      omega
    have hieq : i = s.length := le_antisymm hi hlen
    unfold scanWhile
    rw [chAt_none hlen]
    exact hieq
  | cons a tl ih =>
    intro f i hd hall hf hi
    obtain ⟨f', rfl⟩ : ∃ f', f = f' + 1 := ⟨f - 1, by omega⟩
    have hca : chAt s i = some a := chAt_of_drop hd
    unfold scanWhile
    rw [hca]
    simp only [hall a (List.mem_cons_self a tl), if_true]
    exact ih f' (i + 1) (drop_succ_of_drop hd)
      (fun x hx => hall x (List.mem_cons_of_mem a hx))
      (by simp only [List.length_cons] at hf; omega)
      (by have := chAt_lt hca; omega)

/-- `take` of a cons never equals a cons with a different head. -/
theorem take_ne_cons {a b : Char} {s t : List Char} {n : Nat}
    (h : ¬a = b) : ¬(a :: s).take n = b :: t := by
  cases n with
  | zero => simp
  | succ n =>
    intro he
    rw [List.take_succ_cons] at he
    exact h (List.head_eq_of_cons_eq he)

/-- `substring` with ordered, in-range arguments. -/
theorem jsSubstringN_in {s : List Char} {a b : Nat} (h1 : a ≤ b)
    (h2 : b ≤ s.length) :
    jsSubstringN s a b = (s.drop a).take (b - a) := by
  have ha : min a s.length = a := min_eq_left (le_trans h1 h2)
  have hb : min b s.length = b := min_eq_left h2
  simp only [jsSubstringN, ha, hb, min_eq_left h1, max_eq_right h1]

end Rewriter

namespace Rewriter

/-- Core of claim C6: when an object body consists of a balanced child
span (with `findBalancedEnd` landing on its closer) followed by
`, P: v`, the property locator skips the child wholesale and returns
exactly the depth-zero value `v`, no matter what the child contains. -/
theorem extractProp_skip_then_hit
    (r' rest : List Char) (ph vh : Char) (P' v' : List Char)
    (hfbe : findBalancedEnd ((obr :: r') ++ rest) 0 =
      (((obr :: r').length - 1 : Nat) : Int))
    (hrest : rest =
      cma :: spc :: ((ph :: P') ++ cln :: spc :: (vh :: v')))
    (hph1 : ¬ph = obr) (hph2 : ¬ph = cma) (hph3 : isWs ph = false)
    (hvh1 : ¬vh = obr) (hvh2 : ¬vh = lbk) (hvh3 : ¬vh = btk)
    (hvh4 : ¬vh = dqu) (hvh5 : ¬vh = squ) (hvh6 : ¬vh = spc)
    (hvc : ¬cma ∈ (vh :: v')) (hvn : ¬nlc ∈ (vh :: v')) :
    extractProp ((obr :: r') ++ rest) (ph :: P') =
      some (some (vh :: v')) := by
  subst hrest
  set P : List Char := ph :: P' with hP
  set v : List Char := vh :: v' with hV
  set body : List Char :=
    (obr :: r') ++ (cma :: spc :: (P ++ cln :: spc :: v)) with hbody
  set R : Nat := (obr :: r').length with hR
  have hlenb : body.length = R + (P.length + v.length + 4) := by
    rw [hbody, hR]
    simp only [List.length_append, List.length_cons]
    omega
  have hPpos : 1 ≤ P.length := by rw [hP]; simp
  have hvpos : 1 ≤ v.length := by rw [hV]; simp
  have hR1 : 1 ≤ R := by rw [hR]; simp
  have hdrop0 : body.drop 0 =
      obr :: (r' ++ (cma :: spc :: (P ++ cln :: spc :: v))) := by
    rw [hbody]
    simp
  have hdropR : body.drop R = cma :: spc :: (P ++ cln :: spc :: v) := by
    rw [hbody, hR]
    exact List.drop_left _ _
  have hdropR1 : body.drop (R + 1) = spc :: (P ++ cln :: spc :: v) :=
    drop_succ_of_drop hdropR
  have hdropR2 : body.drop (R + 2) = P ++ cln :: spc :: v := by
    have h2 := drop_succ_of_drop hdropR1
    rw [show R + 1 + 1 = R + 2 from rfl] at h2
    exact h2
  have hdropP : body.drop (R + 2 + P.length) = cln :: spc :: v :=
    drop_point hdropR2
  have hdropP1 : body.drop (R + 2 + P.length + 1) = spc :: v :=
    drop_succ_of_drop hdropP
  have hdropP2 : body.drop (R + 2 + P.length + 2) = v := by
    have h2 := drop_succ_of_drop hdropP1
    rw [show R + 2 + P.length + 1 + 1 = R + 2 + P.length + 2 from rfl] at h2
    exact h2
  have hch0 : chAt body 0 = some obr := chAt_of_drop hdrop0
  have hchR : chAt body R = some cma := chAt_of_drop hdropR
  have hchR1 : chAt body (R + 1) = some spc := chAt_of_drop hdropR1
  have hchR2 : chAt body (R + 2) = some ph :=
    chAt_of_drop (show body.drop (R + 2) = ph :: (P' ++ cln :: spc :: v) by
      rw [hdropR2, hP, List.cons_append])
  have hchP : chAt body (R + 2 + P.length) = some cln := chAt_of_drop hdropP
  have hchP1 : chAt body (R + 2 + P.length + 1) = some spc :=
    chAt_of_drop hdropP1
  have hchP2 : chAt body (R + 2 + P.length + 2) = some vh :=
    chAt_of_drop (show body.drop (R + 2 + P.length + 2) = vh :: v' by
      rw [hdropP2, hV])
  have h00 : ¬(body.length ≤ 0) := by omega
  have hws0 : scanWhile isWs body (body.length + 1) 0 = 0 :=
    scanWhile_stop (by omega) hch0 (by decide)
  have hsub0 : ¬(jsSubstringN body 0 (0 + P.length) = P) := by
    rw [jsSubstringN_in (by omega) (by omega), hdrop0, hP]
    exact take_ne_cons (fun he => hph1 he.symm)
  have hfbe0 : (findBalancedEnd body 0 + 1).toNat = R := by
    rw [hfbe]
    omega
  have hstep0 : extractPropStep body P 0 = .cont R := by
    simp only [extractPropStep, hws0]
    rw [if_neg h00, if_neg h00]
    rw [if_neg (fun hand => hsub0 hand.1)]
    rw [if_pos hch0, hfbe0]
  have h0R : ¬(body.length ≤ R) := by omega
  have hwsR : scanWhile isWs body (body.length + 1) R = R :=
    scanWhile_stop (by omega) hchR (by decide)
  have hsubR : ¬(jsSubstringN body R (R + P.length) = P) := by
    rw [jsSubstringN_in (by omega) (by omega), hdropR, hP]
    exact take_ne_cons (fun he => hph2 he.symm)
  have hchRobr : ¬(chAt body R = some obr) := by rw [hchR]; decide
  have hchRlbk : ¬(chAt body R = some lbk) := by rw [hchR]; decide
  have hchRbtk : ¬(chAt body R = some btk) := by rw [hchR]; decide
  have hchRq : ¬(chAt body R = some dqu ∨ chAt body R = some squ) := by
    rw [hchR]; decide
  have hbwR : scanWhile (fun c => !(inBwClass c)) body
      (body.length + 1) R = R :=
    scanWhile_stop (by omega) hchR (by decide)
  have hstep1 : extractPropStep body P R = .cont (R + 1) := by
    simp only [extractPropStep, hwsR]
    rw [if_neg h0R, if_neg h0R]
    rw [if_neg (fun hand => hsubR hand.1)]
    rw [if_neg hchRobr, if_neg hchRlbk, if_neg hchRbtk, if_neg hchRq,
      hbwR]
    rw [if_pos (Or.inl hchR)]
  have h0R1 : ¬(body.length ≤ R + 1) := by omega
  have h0R2 : ¬(body.length ≤ R + 2) := by omega
  have hwsR1 : scanWhile isWs body (body.length + 1) (R + 1) = R + 2 :=
    scanWhile_one (by omega) hchR1 (by decide)
      (by rw [show R + 1 + 1 = R + 2 from rfl]; exact hchR2) hph3
  have hj0 : scanWhile (fun c => c == spc) body (body.length + 1)
      (R + 2 + P.length) = R + 2 + P.length :=
    scanWhile_stop (by omega) hchP (by decide)
  have hsubR2 : jsSubstringN body (R + 2) (R + 2 + P.length) = P := by
    rw [jsSubstringN_in (by omega) (by omega), hdropR2]
    rw [show R + 2 + P.length - (R + 2) = P.length from by omega]
    exact List.take_left _ _
  have hj : scanWhile (fun c => c == spc) body (body.length + 1)
      (R + 2 + P.length + 1) = R + 2 + P.length + 2 :=
    scanWhile_one (by omega) hchP1 (by decide)
      (by rw [show R + 2 + P.length + 1 + 1 = R + 2 + P.length + 2 from
        rfl]; exact hchP2)
      (beq_eq_false_iff_ne.mpr hvh6)
  have hchJobr : ¬(chAt body (R + 2 + P.length + 2) = some obr) := by
    rw [hchP2]
    exact fun he => hvh1 (Option.some.inj he)
  have hchJlbk : ¬(chAt body (R + 2 + P.length + 2) = some lbk) := by
    rw [hchP2]
    exact fun he => hvh2 (Option.some.inj he)
  have hchJbtk : ¬(chAt body (R + 2 + P.length + 2) = some btk) := by
    rw [hchP2]
    exact fun he => hvh3 (Option.some.inj he)
  have hchJq : ¬(chAt body (R + 2 + P.length + 2) = some dqu ∨
      chAt body (R + 2 + P.length + 2) = some squ) := by
    rw [hchP2]
    exact fun h => h.elim (fun he => hvh4 (Option.some.inj he))
      (fun he => hvh5 (Option.some.inj he))
  have hend : scanWhile (fun c => !(c == cma || c == nlc)) body
      (body.length + 1) (R + 2 + P.length + 2) = body.length := by
    apply scanWhile_end v _ _ hdropP2 ?_ (by omega) (by omega)
    intro x hx
    have hx1 : ¬x = cma := fun he => hvc (by rw [hV]; exact he ▸ hx)
    have hx2 : ¬x = nlc := fun he => hvn (by rw [hV]; exact he ▸ hx)
    simp [beq_eq_false_iff_ne.mpr hx1, beq_eq_false_iff_ne.mpr hx2]
  have hval : jsSubstringI body ((R + 2 + P.length + 2 : Nat) : Int)
      ((body.length : Nat) : Int) = v := by
    unfold jsSubstringI
    rw [show ((R + 2 + P.length + 2 : Nat) : Int).toNat =
      R + 2 + P.length + 2 from by omega]
    rw [show ((body.length : Nat) : Int).toNat = body.length from by
      omega]
    rw [jsSubstringN_in (by omega) (Nat.le_refl _), hdropP2]
    rw [show body.length - (R + 2 + P.length + 2) = v.length from by
      omega]
    exact List.take_length v
  have hstep2 : extractPropStep body P (R + 1) = .ret (some v) := by
    simp only [extractPropStep, hwsR1]
    rw [if_neg h0R1, if_neg h0R2]
    rw [hj0]
    rw [if_pos ⟨hsubR2, hchP⟩]
    rw [hj]
    rw [if_neg hchJobr, if_neg hchJlbk, if_neg hchJbtk, if_neg hchJq]
    rw [hend, hval]
  obtain ⟨k, hk⟩ : ∃ k, body.length + 1 = k + 3 :=
    ⟨body.length - 2, by omega⟩
  unfold extractProp
  rw [hk]
  simp only [epGo, hstep0, hstep1, hstep2]

end Rewriter

namespace Rewriter

/-- Claim C6: for an object body holding a property `P` at depth zero
preceded by a child object span (rendered from any well-formed `BTree`,
so it may contain another `P:`-property nested arbitrarily deep, or
any quoted/templated text), `extractProp` skips the child wholesale —
never descending into it — and returns exactly the depth-zero value. -/
theorem c6_extractProp_depth0
    (t : BTree) (hv : validT obr cbr t = true)
    (ph vh : Char) (P' v' : List Char)
    (hph1 : ¬ph = obr) (hph2 : ¬ph = cma) (hph3 : isWs ph = false)
    (hvh1 : ¬vh = obr) (hvh2 : ¬vh = lbk) (hvh3 : ¬vh = btk)
    (hvh4 : ¬vh = dqu) (hvh5 : ¬vh = squ) (hvh6 : ¬vh = spc)
    (hvc : ¬cma ∈ (vh :: v')) (hvn : ¬nlc ∈ (vh :: v')) :
    extractProp
      ((obr :: (renderT obr cbr t ++ [cbr])) ++
        (cma :: spc :: ((ph :: P') ++ cln :: spc :: (vh :: v'))))
      (ph :: P') = some (some (vh :: v')) := by
  apply extractProp_skip_then_hit (renderT obr cbr t ++ [cbr]) _ ph vh P'
    v' ?_ rfl hph1 hph2 hph3 hvh1 hvh2 hvh3 hvh4 hvh5 hvh6 hvc hvn
  have h := fbe_balanced (Or.inl ⟨rfl, rfl⟩) t hv []
    (cma :: spc :: ((ph :: P') ++ cln :: spc :: (vh :: v')))
  simp only [List.nil_append, List.length_nil] at h
  rw [h]
  simp only [List.length_cons, List.length_append, List.length_nil]
  omega

theorem c6_extractProp_depth0_witness :
    extractProp ("\x7bvalue: 1\x7d, value: 2".toList) ("value".toList) =
      some (some ['2']) := by
  have h := c6_extractProp_depth0
    (.chr 'v' (.chr 'a' (.chr 'l' (.chr 'u' (.chr 'e' (.chr cln
      (.chr spc (.chr '1' .eps)))))))) (by decide)
    'v' '2' ("alue".toList) [] (by decide) (by decide) (by decide)
    (by decide) (by decide) (by decide) (by decide) (by decide)
    (by decide) (by decide) (by decide)
  have heq : ("\x7bvalue: 1\x7d, value: 2".toList) =
      ((obr :: (renderT obr cbr
        (.chr 'v' (.chr 'a' (.chr 'l' (.chr 'u' (.chr 'e' (.chr cln
          (.chr spc (.chr '1' .eps)))))))) ++ [cbr])) ++
        (cma :: spc :: (('v' :: "alue".toList) ++
          cln :: spc :: ('2' :: [])))) := by decide
  rw [heq]
  exact h

end Rewriter
